import Mathlib

/-!
# Shallow embedding of `rocket-basicauth` (src/src/lib.rs)

This file models the credential-decoding pipeline of the crate:

* `decode_to_creds` (lib.rs lines 80-108): base64-decode the payload,
  interpret the bytes as UTF-8 (`String::from_utf8(..).unwrap()`, which
  panics on invalid UTF-8), and split at the first `':'` via `split_once`.
* `BasicAuth.new` (lines 144-153): byte-length check `key.len() < 7`,
  byte-slice comparison `&key[..6] != "Basic "` (which panics when byte
  index 6 is not a char boundary), then delegation to `decode_to_creds`.
* `from_request` (lines 160-173): the header-count dispatch.

Rust strings are modelled as Lean `String` together with an explicit UTF-8
byte encoding (`utf8EncodeList`), so that the byte-level operations of the
source (`len`, `&key[..6]`, `String::from_utf8`) are captured faithfully.
Possible panics are made explicit with the `PanicOr` result type.

The third-party `base64::decode` dependency is not part of this repository;
it is modelled from the spec's description: a standard-alphabet,
padding-tolerant base64 decoder that rejects characters outside the
alphabet, rejects impossible lengths, and rejects non-zero trailing bits.
-/

/-- Result of running a piece of Rust code that may panic: either a normal
return value or an abnormal termination. -/
inductive PanicOr (α : Type) where
  | ok : α → PanicOr α
  | panicked : PanicOr α
  deriving DecidableEq, Repr

/-- The standard base64 alphabet: digit value (0-63) to character. -/
def b64Char (n : Nat) : Char :=
  if n < 26 then Char.ofNat (65 + n)
  else if n < 52 then Char.ofNat (97 + (n - 26))
  else if n < 62 then Char.ofNat (48 + (n - 52))
  else if n = 62 then '+'
  else '/'

/-- The standard base64 alphabet: character to digit value, `none` for
characters outside the alphabet. -/
def b64Digit (c : Char) : Option Nat :=
  let n := c.toNat
  if 65 ≤ n ∧ n ≤ 90 then some (n - 65)
  else if 97 ≤ n ∧ n ≤ 122 then some (n - 71)
  else if 48 ≤ n ∧ n ≤ 57 then some (n + 4)
  else if n = 43 then some 62
  else if n = 47 then some 63
  else none

/-- Remove up to two trailing `'='` padding characters. -/
def stripPad (cs : List Char) : List Char :=
  if cs.getLast? = some '=' then
    if cs.dropLast.getLast? = some '=' then cs.dropLast.dropLast else cs.dropLast
  else cs

/-- Translate every character to its base64 digit value; fail if any
character is outside the alphabet. -/
def b64DigitsOfChars : List Char → Option (List Nat)
  | [] => some []
  | c :: cs =>
    match b64Digit c, b64DigitsOfChars cs with
    | some d, some ds => some (d :: ds)
    | _, _ => none

/-- Reassemble base64 digit values (6 bits each) into bytes.  A single
leftover digit is an impossible length; leftover groups of two or three
digits must have zero trailing bits. -/
def b64assemble : List Nat → Option (List Nat)
  | d0 :: d1 :: d2 :: d3 :: ds =>
    match b64assemble ds with
    | some bs => some ((d0 * 4 + d1 / 16) :: ((d1 % 16) * 16 + d2 / 4) :: ((d2 % 4) * 64 + d3) :: bs)
    | none => none
  | [d0, d1, d2] =>
    if d2 % 4 = 0 then some [d0 * 4 + d1 / 16, (d1 % 16) * 16 + d2 / 4] else none
  | [d0, d1] =>
    if d1 % 16 = 0 then some [d0 * 4 + d1 / 16] else none
  | [_] => none
  | [] => some []

/-- Modelled from the spec: `base64::decode` of the `base64` crate, which is
not part of this repository — a standard-alphabet, padding-tolerant base64
decoder returning the decoded bytes or an error. -/
def b64decode (s : String) : Option (List Nat) :=
  match b64DigitsOfChars (stripPad s.data) with
  | some ds => b64assemble ds
  | none => none

/-- Standard base64 encoding of a byte list (character list form). -/
def b64encodeList : List Nat → List Char
  | b0 :: b1 :: b2 :: bs =>
    b64Char (b0 / 4) :: b64Char ((b0 % 4) * 16 + b1 / 16) ::
      b64Char ((b1 % 16) * 4 + b2 / 64) :: b64Char (b2 % 64) :: b64encodeList bs
  | [b0, b1] => [b64Char (b0 / 4), b64Char ((b0 % 4) * 16 + b1 / 16), b64Char ((b1 % 16) * 4), '=']
  | [b0] => [b64Char (b0 / 4), b64Char ((b0 % 4) * 16), '=', '=']
  | [] => []

/-- Standard base64 encoding of a byte list, as a string. -/
def b64encode (bs : List Nat) : String := ⟨b64encodeList bs⟩

/-- UTF-8 encoding of a single unicode scalar value. -/
def utf8EncodeChar (c : Char) : List Nat :=
  if c.toNat < 128 then [c.toNat]
  else if c.toNat < 2048 then [192 + c.toNat / 64, 128 + c.toNat % 64]
  else if c.toNat < 65536 then
    [224 + c.toNat / 4096, 128 + (c.toNat / 64) % 64, 128 + c.toNat % 64]
  else
    [240 + c.toNat / 262144, 128 + (c.toNat / 4096) % 64, 128 + (c.toNat / 64) % 64,
      128 + c.toNat % 64]

/-- UTF-8 encoding of a character list. -/
def utf8EncodeList : List Char → List Nat
  | [] => []
  | c :: cs => utf8EncodeChar c ++ utf8EncodeList cs

/-- Number of bytes of the UTF-8 encoding of one character
(Rust `char::len_utf8`). -/
def charUtf8Size (c : Char) : Nat :=
  if c.toNat < 128 then 1 else if c.toNat < 2048 then 2 else if c.toNat < 65536 then 3 else 4

/-- One step of UTF-8 decoding (the validation of Rust's
`String::from_utf8`): decode the first scalar value of the byte list and
return it with the remaining bytes; `none` on an empty list, an invalid
leading byte, truncated or invalid continuation bytes, overlong encodings,
surrogates and values above `0x10FFFF`. -/
def utf8DecodeOne (bs : List Nat) : Option (Char × List Nat) :=
  match bs with
  | [] => none
  | b :: rest =>
    if b < 128 then some (Char.ofNat b, rest)
    else if b < 224 then
      match rest with
      | b1 :: rest1 =>
        if 194 ≤ b ∧ 128 ≤ b1 ∧ b1 < 192 then
          some (Char.ofNat ((b - 192) * 64 + (b1 - 128)), rest1)
        else none
      | [] => none
    else if b < 240 then
      match rest with
      | b1 :: b2 :: rest2 =>
        if (128 ≤ b1 ∧ b1 < 192) ∧ (128 ≤ b2 ∧ b2 < 192) ∧
            2048 ≤ (b - 224) * 4096 + (b1 - 128) * 64 + (b2 - 128) ∧
            ((b - 224) * 4096 + (b1 - 128) * 64 + (b2 - 128) < 55296 ∨
              57344 ≤ (b - 224) * 4096 + (b1 - 128) * 64 + (b2 - 128)) then
          some (Char.ofNat ((b - 224) * 4096 + (b1 - 128) * 64 + (b2 - 128)), rest2)
        else none
      | _ => none
    else
      match rest with
      | b1 :: b2 :: b3 :: rest3 =>
        if (128 ≤ b1 ∧ b1 < 192) ∧ (128 ≤ b2 ∧ b2 < 192) ∧ (128 ≤ b3 ∧ b3 < 192) ∧
            65536 ≤ (b - 240) * 262144 + (b1 - 128) * 4096 + (b2 - 128) * 64 + (b3 - 128) ∧
            (b - 240) * 262144 + (b1 - 128) * 4096 + (b2 - 128) * 64 + (b3 - 128) < 1114112 then
          some (Char.ofNat ((b - 240) * 262144 + (b1 - 128) * 4096 + (b2 - 128) * 64 + (b3 - 128)),
            rest3)
        else none
      | _ => none

/-- Fuelled iteration of `utf8DecodeOne`; the fuel only bounds the number
of decoded characters, each step consumes at least one byte. -/
def utf8DecodeGo : Nat → List Nat → Option (List Char)
  | _, [] => some []
  | 0, _ :: _ => none
  | fuel + 1, b :: bs =>
    match utf8DecodeOne (b :: bs) with
    | some (c, rest) => (utf8DecodeGo fuel rest).map (fun cs => c :: cs)
    | none => none

/-- Full UTF-8 decoding of a byte list: the character list, or `none` on
invalid UTF-8. -/
def utf8DecodeList (bs : List Nat) : Option (List Char) :=
  utf8DecodeGo bs.length bs

/-- Rust `String::from_utf8`: the decoded string, or `none` on invalid
UTF-8 (the caller `decode_to_creds` unwraps this). -/
def utf8DecodeString (bs : List Nat) : Option String :=
  match utf8DecodeList bs with
  | some cs => some ⟨cs⟩
  | none => none

/-- Rust `str::split_once` with a single-character pattern: split at the
first occurrence of `sep`, or `none` when `sep` does not occur. -/
def splitOnce (sep : Char) : List Char → Option (List Char × List Char)
  | [] => none
  | c :: cs =>
    if c = sep then some ([], cs)
    else
      match splitOnce sep cs with
      | some (a, b) => some (c :: a, b)
      | none => none

/-- Split a character list at UTF-8 byte position `n`: `none` when `n`
falls strictly inside a character's encoding or past the end (Rust string
slicing panics there). -/
def splitAtByte (n : Nat) (cs : List Char) : Option (List Char × List Char) :=
  match n, cs with
  | 0, cs => some ([], cs)
  | _ + 1, [] => none
  | n + 1, c :: cs =>
    if charUtf8Size c ≤ n + 1 then
      match splitAtByte (n + 1 - charUtf8Size c) cs with
      | some (a, b) => some (c :: a, b)
      | none => none
    else none
  termination_by structural cs

/-- lib.rs lines 80-108, `decode_to_creds`: base64-decode the payload
(`Err` returns `None`), interpret the bytes as UTF-8 — the source calls
`String::from_utf8(cred_bytes).unwrap()`, so invalid UTF-8 panics —
then `split_once(":")`: a split yields `Some (username, password)`,
no colon yields `None`. -/
def decode_to_creds (base64_encoded : String) : PanicOr (Option (String × String)) :=
  match b64decode base64_encoded with
  | none => .ok none
  | some cred_bytes =>
    match utf8DecodeString cred_bytes with
    | none => .panicked
    | some decoded_creds =>
      match splitOnce ':' decoded_creds.data with
      | some (username, password) => .ok (some (⟨username⟩, ⟨password⟩))
      | none => .ok none

/-- lib.rs lines 132-139: the request guard's credential pair. -/
structure BasicAuth where
  username : String
  password : String
  deriving DecidableEq, Repr

/-- lib.rs lines 144-153, `BasicAuth::new`: `key.len() < 7` is the UTF-8
byte length; `&key[..6] != "Basic "` slices the first 6 bytes, panicking
when byte index 6 is not a character boundary; on a match the remainder
`&key[6..]` is handed to `decode_to_creds`. -/
def BasicAuth.new (auth_header : String) : PanicOr (Option BasicAuth) :=
  if (utf8EncodeList auth_header.data).length < 7 then .ok none
  else
    match splitAtByte 6 auth_header.data with
    | none => .panicked
    | some (pre6, rest) =>
      if utf8EncodeList pre6 ≠ [66, 97, 115, 105, 99, 32] then .ok none
      else
        match decode_to_creds ⟨rest⟩ with
        | .panicked => .panicked
        | .ok none => .ok none
        | .ok (some (username, password)) => .ok (some ⟨username, password⟩)

/-- lib.rs lines 66-76: the guard's error taxonomy.  `BadCount` is the
spec's `AmbiguousHeaderCount`, `Invalid` its `MalformedEncoding`. -/
inductive BasicAuthError where
  | BadCount
  | Invalid
  deriving DecidableEq, Repr

/-- The only `rocket::http::Status` value the guard uses. -/
inductive Status where
  | BadRequest
  deriving DecidableEq, Repr

/-- Rocket's request outcome, restricted to the shapes the guard produces.
`Forward` is the spec's `NotAttempted`, `Failure` its `Rejected`. -/
inductive Outcome where
  | Success : BasicAuth → Outcome
  | Failure : Status × BasicAuthError → Outcome
  | Forward : Outcome
  deriving DecidableEq, Repr

/-- lib.rs lines 160-173, `from_request`, as a function of the collected
`Authorization` header values: 0 values forward, 1 value delegates to
`BasicAuth::new`, otherwise `BadCount`. -/
def from_request (keys : List String) : PanicOr Outcome :=
  match keys with
  | [] => .ok .Forward
  | [k] =>
    match BasicAuth.new k with
    | .ok (some auth_header) => .ok (.Success auth_header)
    | .ok none => .ok (.Failure (.BadRequest, .Invalid))
    | .panicked => .panicked
  | _ => .ok (.Failure (.BadRequest, .BadCount))

/-- The spec's round-trip encoding (§8): `"Basic " + base64(username +
":" + password)`, with the payload's UTF-8 bytes base64-encoded. -/
def encodeBasic (username password : String) : String :=
  "Basic " ++ b64encode (utf8EncodeList (username ++ ":" ++ password).data)

/-! ## Base64 lemmas -/

theorem b64Digit_b64Char_fin : ∀ d : Fin 64, b64Digit (b64Char d.val) = some d.val := by decide

theorem b64Digit_b64Char {d : Nat} (h : d < 64) : b64Digit (b64Char d) = some d :=
  b64Digit_b64Char_fin ⟨d, h⟩

theorem b64Char_ne_pad (d : Nat) : b64Char d ≠ '=' := by
  by_cases h : d < 62
  · interval_cases d <;> decide
  · unfold b64Char
    rw [if_neg (by omega), if_neg (by omega), if_neg (by omega)]
    by_cases h62 : d = 62
    · rw [if_pos h62]; decide
    · rw [if_neg h62]; decide

/-- The base64 digit values of a byte list (the character content of its
encoding, without padding). -/
def b64digitsOf : List Nat → List Nat
  | b0 :: b1 :: b2 :: bs =>
    (b0 / 4) :: ((b0 % 4) * 16 + b1 / 16) :: ((b1 % 16) * 4 + b2 / 64) :: (b2 % 64) :: b64digitsOf bs
  | [b0, b1] => [b0 / 4, (b0 % 4) * 16 + b1 / 16, (b1 % 16) * 4]
  | [b0] => [b0 / 4, (b0 % 4) * 16]
  | [] => []

/-- The padding characters of the base64 encoding of a byte list. -/
def b64padsOf : List Nat → List Char
  | _ :: _ :: _ :: bs => b64padsOf bs
  | [_, _] => ['=']
  | [_] => ['=', '=']
  | [] => []

theorem b64encodeList_eq (bs : List Nat) :
    b64encodeList bs = (b64digitsOf bs).map b64Char ++ b64padsOf bs := by
  induction bs using b64encodeList.induct with
  | case1 b0 b1 b2 bs ih => simp [b64encodeList, b64digitsOf, b64padsOf, ih]
  | case2 b0 b1 => simp [b64encodeList, b64digitsOf, b64padsOf]
  | case3 b0 => simp [b64encodeList, b64digitsOf, b64padsOf]
  | case4 => simp [b64encodeList, b64digitsOf, b64padsOf]

theorem b64digitsOf_lt (bs : List Nat) (h : ∀ b ∈ bs, b < 256) :
    ∀ d ∈ b64digitsOf bs, d < 64 := by
  induction bs using b64digitsOf.induct with
  | case1 b0 b1 b2 bs ih =>
    have h0 := h b0 (by simp)
    have h1 := h b1 (by simp)
    have h2 := h b2 (by simp)
    intro d hd
    simp only [b64digitsOf, List.mem_cons] at hd
    rcases hd with rfl | rfl | rfl | rfl | hd
    · omega
    · omega
    · omega
    · omega
    · exact ih (fun b hb => h b (by simp [hb])) d hd
  | case2 b0 b1 =>
    have h0 := h b0 (by simp)
    have h1 := h b1 (by simp)
    intro d hd
    simp only [b64digitsOf, List.mem_cons] at hd
    rcases hd with rfl | rfl | rfl | hd
    · omega
    · omega
    · omega
    · simp at hd
  | case3 b0 =>
    have h0 := h b0 (by simp)
    intro d hd
    simp only [b64digitsOf, List.mem_cons] at hd
    rcases hd with rfl | rfl | hd
    · omega
    · omega
    · simp at hd
  | case4 => simp [b64digitsOf]

theorem b64padsOf_cases (bs : List Nat) :
    b64padsOf bs = [] ∨ b64padsOf bs = ['='] ∨ b64padsOf bs = ['=', '='] := by
  induction bs using b64padsOf.induct with
  | case1 b0 b1 b2 bs ih => simpa [b64padsOf] using ih
  | case2 b0 b1 => simp [b64padsOf]
  | case3 b0 => simp [b64padsOf]
  | case4 => simp [b64padsOf]

theorem stripPad_no_pad (cs : List Char) (h : '=' ∉ cs) : stripPad cs = cs := by
  unfold stripPad
  rw [if_neg]
  intro hlast
  exact h (List.mem_of_mem_getLast? hlast)

theorem stripPad_one (xs : List Char) (h : '=' ∉ xs) : stripPad (xs ++ ['=']) = xs := by
  unfold stripPad
  rw [if_pos (by simp), List.dropLast_concat, if_neg]
  intro hlast
  exact h (List.mem_of_mem_getLast? hlast)

theorem stripPad_two (xs : List Char) : stripPad (xs ++ ['=', '=']) = xs := by
  have h2 : xs ++ ['=', '='] = (xs ++ ['=']) ++ ['='] := by simp
  unfold stripPad
  rw [h2, if_pos (by simp), List.dropLast_concat, if_pos (by simp), List.dropLast_concat]

theorem b64DigitsOfChars_map (ds : List Nat) (h : ∀ d ∈ ds, d < 64) :
    b64DigitsOfChars (ds.map b64Char) = some ds := by
  induction ds with
  | nil => rfl
  | cons d ds ih =>
    have hd : d < 64 := h d (by simp)
    simp only [List.map_cons, b64DigitsOfChars, b64Digit_b64Char hd,
      ih (fun x hx => h x (by simp [hx]))]

theorem b64assemble_digitsOf (bs : List Nat) (h : ∀ b ∈ bs, b < 256) :
    b64assemble (b64digitsOf bs) = some bs := by
  induction bs using b64digitsOf.induct with
  | case1 b0 b1 b2 bs ih =>
    have h0 := h b0 (by simp)
    have h1 := h b1 (by simp)
    have h2 := h b2 (by simp)
    simp only [b64digitsOf, b64assemble, ih (fun b hb => h b (by simp [hb]))]
    have e0 : b0 / 4 * 4 + ((b0 % 4) * 16 + b1 / 16) / 16 = b0 := by omega
    have e1 : ((b0 % 4) * 16 + b1 / 16) % 16 * 16 + ((b1 % 16) * 4 + b2 / 64) / 4 = b1 := by omega
    have e2 : ((b1 % 16) * 4 + b2 / 64) % 4 * 64 + b2 % 64 = b2 := by omega
    rw [e0, e1, e2]
  | case2 b0 b1 =>
    have h0 := h b0 (by simp)
    have h1 := h b1 (by simp)
    simp only [b64digitsOf, b64assemble]
    rw [if_pos (by omega)]
    have e0 : b0 / 4 * 4 + ((b0 % 4) * 16 + b1 / 16) / 16 = b0 := by omega
    have e1 : ((b0 % 4) * 16 + b1 / 16) % 16 * 16 + (b1 % 16) * 4 / 4 = b1 := by omega
    rw [e0, e1]
  | case3 b0 =>
    have h0 := h b0 (by simp)
    simp only [b64digitsOf, b64assemble]
    rw [if_pos (by omega)]
    have e0 : b0 / 4 * 4 + (b0 % 4) * 16 / 16 = b0 := by omega
    rw [e0]
  | case4 => rfl

theorem b64decode_encode (bs : List Nat) (h : ∀ b ∈ bs, b < 256) :
    b64decode (b64encode bs) = some bs := by
  unfold b64decode b64encode
  show (match b64DigitsOfChars (stripPad (b64encodeList bs)) with
    | some ds => b64assemble ds
    | none => none) = some bs
  have hne : '=' ∉ (b64digitsOf bs).map b64Char := by
    intro hmem
    rcases List.mem_map.mp hmem with ⟨d, _, hd⟩
    exact b64Char_ne_pad d hd
  have hdig : b64DigitsOfChars (stripPad (b64encodeList bs)) = some (b64digitsOf bs) := by
    rw [b64encodeList_eq]
    rcases b64padsOf_cases bs with hp | hp | hp <;> rw [hp]
    · rw [List.append_nil, stripPad_no_pad _ hne]
      exact b64DigitsOfChars_map _ (b64digitsOf_lt bs h)
    · rw [stripPad_one _ hne]
      exact b64DigitsOfChars_map _ (b64digitsOf_lt bs h)
    · rw [stripPad_two]
      exact b64DigitsOfChars_map _ (b64digitsOf_lt bs h)
  rw [hdig]
  exact b64assemble_digitsOf bs h

/-! ## UTF-8 lemmas -/

theorem char_toNat_valid (c : Char) :
    c.toNat < 55296 ∨ (57343 < c.toNat ∧ c.toNat < 1114112) := c.valid

theorem char_toNat_lt (c : Char) : c.toNat < 1114112 := by
  rcases char_toNat_valid c with h | h
  · omega
  · omega

theorem utf8EncodeChar_lt (c : Char) : ∀ b ∈ utf8EncodeChar c, b < 256 := by
  have hv := char_toNat_lt c
  unfold utf8EncodeChar
  split
  · intro b hb
    simp only [List.mem_singleton] at hb
    omega
  · split
    · intro b hb
      simp only [List.mem_cons, List.not_mem_nil, or_false] at hb
      rcases hb with rfl | rfl <;> omega
    · split
      · intro b hb
        simp only [List.mem_cons, List.not_mem_nil, or_false] at hb
        rcases hb with rfl | rfl | rfl <;> omega
      · intro b hb
        simp only [List.mem_cons, List.not_mem_nil, or_false] at hb
        have h4 : c.toNat / 262144 ≤ 4 := by omega
        rcases hb with rfl | rfl | rfl | rfl <;> omega

theorem utf8EncodeList_lt (cs : List Char) : ∀ b ∈ utf8EncodeList cs, b < 256 := by
  induction cs with
  | nil => simp [utf8EncodeList]
  | cons c cs ih =>
    intro b hb
    simp only [utf8EncodeList, List.mem_append] at hb
    rcases hb with hb | hb
    · exact utf8EncodeChar_lt c b hb
    · exact ih b hb

theorem utf8EncodeChar_ne_nil (c : Char) : utf8EncodeChar c ≠ [] := by
  unfold utf8EncodeChar
  split
  · simp
  · split
    · simp
    · split
      · simp
      · simp

theorem utf8EncodeList_append (l1 l2 : List Char) :
    utf8EncodeList (l1 ++ l2) = utf8EncodeList l1 ++ utf8EncodeList l2 := by
  induction l1 with
  | nil => simp [utf8EncodeList]
  | cons c cs ih => simp [utf8EncodeList, ih]

theorem utf8DecodeOne_step1 (b : Nat) (bs : List Nat) (h : b < 128) :
    utf8DecodeOne (b :: bs) = some (Char.ofNat b, bs) := by
  unfold utf8DecodeOne
  dsimp only
  rw [if_pos h]

theorem utf8DecodeOne_step2 (b b1 : Nat) (bs : List Nat) (hb : 194 ≤ b) (hb2 : b < 224)
    (h1 : 128 ≤ b1) (h2 : b1 < 192) :
    utf8DecodeOne (b :: b1 :: bs) = some (Char.ofNat ((b - 192) * 64 + (b1 - 128)), bs) := by
  unfold utf8DecodeOne
  dsimp only
  rw [if_neg (by omega), if_pos hb2, if_pos ⟨hb, h1, h2⟩]

theorem utf8DecodeOne_step3 (b b1 b2 : Nat) (bs : List Nat) (hb : 224 ≤ b) (hb2 : b < 240)
    (h1 : 128 ≤ b1) (h2 : b1 < 192) (h3 : 128 ≤ b2) (h4 : b2 < 192)
    (hlo : 2048 ≤ (b - 224) * 4096 + (b1 - 128) * 64 + (b2 - 128))
    (hsur : (b - 224) * 4096 + (b1 - 128) * 64 + (b2 - 128) < 55296 ∨
      57344 ≤ (b - 224) * 4096 + (b1 - 128) * 64 + (b2 - 128)) :
    utf8DecodeOne (b :: b1 :: b2 :: bs) =
      some (Char.ofNat ((b - 224) * 4096 + (b1 - 128) * 64 + (b2 - 128)), bs) := by
  unfold utf8DecodeOne
  dsimp only
  rw [if_neg (by omega), if_neg (by omega), if_pos hb2, if_pos ⟨⟨h1, h2⟩, ⟨h3, h4⟩, hlo, hsur⟩]

theorem utf8DecodeOne_step4 (b b1 b2 b3 : Nat) (bs : List Nat) (hb : 240 ≤ b)
    (h1 : 128 ≤ b1) (h2 : b1 < 192) (h3 : 128 ≤ b2) (h4 : b2 < 192) (h5 : 128 ≤ b3)
    (h6 : b3 < 192)
    (hlo : 65536 ≤ (b - 240) * 262144 + (b1 - 128) * 4096 + (b2 - 128) * 64 + (b3 - 128))
    (hhi : (b - 240) * 262144 + (b1 - 128) * 4096 + (b2 - 128) * 64 + (b3 - 128) < 1114112) :
    utf8DecodeOne (b :: b1 :: b2 :: b3 :: bs) =
      some (Char.ofNat ((b - 240) * 262144 + (b1 - 128) * 4096 + (b2 - 128) * 64 + (b3 - 128)),
        bs) := by
  unfold utf8DecodeOne
  dsimp only
  rw [if_neg (by omega), if_neg (by omega), if_neg (by omega),
    if_pos ⟨⟨h1, h2⟩, ⟨h3, h4⟩, ⟨h5, h6⟩, hlo, hhi⟩]

theorem utf8DecodeOne_encodeChar (c : Char) (bs : List Nat) :
    utf8DecodeOne (utf8EncodeChar c ++ bs) = some (c, bs) := by
  have hv := char_toNat_valid c
  by_cases h1 : c.toNat < 128
  · rw [show utf8EncodeChar c = [c.toNat] by unfold utf8EncodeChar; rw [if_pos h1]]
    rw [List.singleton_append, utf8DecodeOne_step1 _ _ h1, Char.ofNat_toNat]
  · by_cases h2 : c.toNat < 2048
    · rw [show utf8EncodeChar c = [192 + c.toNat / 64, 128 + c.toNat % 64] by
        unfold utf8EncodeChar; rw [if_neg h1, if_pos h2]]
      rw [List.cons_append, List.singleton_append,
        utf8DecodeOne_step2 _ _ _ (by omega) (by omega) (by omega) (by omega)]
      have e : (192 + c.toNat / 64 - 192) * 64 + (128 + c.toNat % 64 - 128) = c.toNat := by
        omega
      rw [e, Char.ofNat_toNat]
    · by_cases h3 : c.toNat < 65536
      · rw [show utf8EncodeChar c =
            [224 + c.toNat / 4096, 128 + (c.toNat / 64) % 64, 128 + c.toNat % 64] by
          unfold utf8EncodeChar; rw [if_neg h1, if_neg h2, if_pos h3]]
        rw [List.cons_append, List.cons_append, List.singleton_append,
          utf8DecodeOne_step3 _ _ _ _ (by omega) (by omega) (by omega) (by omega) (by omega)
            (by omega) (by omega) (by omega)]
        have e : (224 + c.toNat / 4096 - 224) * 4096 + (128 + c.toNat / 64 % 64 - 128) * 64 +
            (128 + c.toNat % 64 - 128) = c.toNat := by omega
        rw [e, Char.ofNat_toNat]
      · rw [show utf8EncodeChar c =
            [240 + c.toNat / 262144, 128 + (c.toNat / 4096) % 64, 128 + (c.toNat / 64) % 64,
              128 + c.toNat % 64] by
          unfold utf8EncodeChar; rw [if_neg h1, if_neg h2, if_neg h3]]
        rw [List.cons_append, List.cons_append, List.cons_append, List.singleton_append,
          utf8DecodeOne_step4 _ _ _ _ _ (by omega) (by omega) (by omega) (by omega) (by omega)
            (by omega) (by omega) (by omega) (by omega)]
        have e : (240 + c.toNat / 262144 - 240) * 262144 + (128 + c.toNat / 4096 % 64 - 128) *
            4096 + (128 + c.toNat / 64 % 64 - 128) * 64 + (128 + c.toNat % 64 - 128) =
            c.toNat := by omega
        rw [e, Char.ofNat_toNat]

theorem utf8DecodeOne_length {bs rest : List Nat} {c : Char}
    (h : utf8DecodeOne bs = some (c, rest)) : rest.length < bs.length := by
  rcases bs with _ | ⟨b, bs0⟩
  · simp [utf8DecodeOne] at h
  · unfold utf8DecodeOne at h
    dsimp only at h
    by_cases hb1 : b < 128
    · rw [if_pos hb1] at h
      simp only [Option.some.injEq, Prod.mk.injEq] at h
      obtain ⟨-, rfl⟩ := h
      simp
    · rw [if_neg hb1] at h
      by_cases hb2 : b < 224
      · rw [if_pos hb2] at h
        rcases bs0 with _ | ⟨b1, rest1⟩
        · simp at h
        · dsimp only at h
          split at h
          · simp only [Option.some.injEq, Prod.mk.injEq] at h
            obtain ⟨-, rfl⟩ := h
            simp
            omega
          · simp at h
      · rw [if_neg hb2] at h
        by_cases hb3 : b < 240
        · rw [if_pos hb3] at h
          rcases bs0 with _ | ⟨b1, _ | ⟨b2, rest2⟩⟩
          · simp at h
          · simp at h
          · dsimp only at h
            split at h
            · simp only [Option.some.injEq, Prod.mk.injEq] at h
              obtain ⟨-, rfl⟩ := h
              simp
              omega
            · simp at h
        · rw [if_neg hb3] at h
          rcases bs0 with _ | ⟨b1, _ | ⟨b2, _ | ⟨b3, rest3⟩⟩⟩
          · simp at h
          · simp at h
          · simp at h
          · dsimp only at h
            split at h
            · simp only [Option.some.injEq, Prod.mk.injEq] at h
              obtain ⟨-, rfl⟩ := h
              simp
              omega
            · simp at h

theorem utf8DecodeGo_congr (fuel : Nat) : ∀ bs : List Nat, bs.length ≤ fuel →
    utf8DecodeGo fuel bs = utf8DecodeGo bs.length bs := by
  induction fuel using Nat.strong_induction_on with
  | _ fuel ih =>
    intro bs hlen
    rcases bs with _ | ⟨b, bs0⟩
    · cases fuel <;> rfl
    · rcases fuel with _ | fuel
      · simp at hlen
      · simp only [utf8DecodeGo, List.length_cons]
        cases hone : utf8DecodeOne (b :: bs0) with
        | none => rfl
        | some p =>
          obtain ⟨c, rest⟩ := p
          have hr : rest.length < bs0.length + 1 := utf8DecodeOne_length hone
          simp only [List.length_cons] at hlen
          dsimp only
          rw [ih fuel (by omega) rest (by omega), ih bs0.length (by omega) rest (by omega)]

theorem utf8DecodeList_cons_eq (b : Nat) (bs0 : List Nat) :
    utf8DecodeList (b :: bs0) =
      match utf8DecodeOne (b :: bs0) with
      | some (c, rest) => (utf8DecodeList rest).map (fun cs => c :: cs)
      | none => none := by
  unfold utf8DecodeList
  simp only [List.length_cons, utf8DecodeGo]
  cases hone : utf8DecodeOne (b :: bs0) with
  | none => rfl
  | some p =>
    obtain ⟨c, rest⟩ := p
    have hr : rest.length < bs0.length + 1 := utf8DecodeOne_length hone
    dsimp only
    rw [utf8DecodeGo_congr bs0.length rest (by omega)]

theorem utf8DecodeList_encodeList (cs : List Char) :
    utf8DecodeList (utf8EncodeList cs) = some cs := by
  induction cs with
  | nil => rfl
  | cons c cs ih =>
    have hsh : utf8EncodeList (c :: cs) = utf8EncodeChar c ++ utf8EncodeList cs := rfl
    rcases hcc : utf8EncodeChar c ++ utf8EncodeList cs with _ | ⟨b, rest0⟩
    · rcases List.append_eq_nil.mp hcc with ⟨h1, -⟩
      exact absurd h1 (utf8EncodeChar_ne_nil c)
    · rw [hsh, hcc, utf8DecodeList_cons_eq, ← hcc, utf8DecodeOne_encodeChar]
      dsimp only
      rw [ih]
      rfl

/-! ## Splitter lemmas -/

theorem splitOnce_append (sep : Char) (u p : List Char) (h : sep ∉ u) :
    splitOnce sep (u ++ sep :: p) = some (u, p) := by
  induction u with
  | nil => simp [splitOnce]
  | cons c cs ih =>
    have hc : c ≠ sep := by
      intro hc
      exact h (by simp [hc])
    simp only [List.cons_append, splitOnce, if_neg hc]
    rw [show cs.append (sep :: p) = cs ++ sep :: p from rfl]
    rw [ih (fun hm => h (by simp [hm]))]

theorem splitOnce_eq_some (sep : Char) : ∀ cs a b : List Char,
    splitOnce sep cs = some (a, b) → sep ∉ a ∧ cs = a ++ sep :: b := by
  intro cs
  induction cs with
  | nil =>
    intro a b h
    simp [splitOnce] at h
  | cons c cs0 ih =>
    intro a b h
    simp only [splitOnce] at h
    by_cases hc : c = sep
    · rw [if_pos hc] at h
      simp only [Option.some.injEq, Prod.mk.injEq] at h
      obtain ⟨rfl, rfl⟩ := h
      subst hc
      simp
    · rw [if_neg hc] at h
      cases hs : splitOnce sep cs0 with
      | none =>
        rw [hs] at h
        simp at h
      | some q =>
        obtain ⟨a0, b0⟩ := q
        rw [hs] at h
        dsimp only at h
        simp only [Option.some.injEq, Prod.mk.injEq] at h
        obtain ⟨rfl, rfl⟩ := h
        obtain ⟨hna, hcs⟩ := ih a0 b0 hs
        constructor
        · intro hmem
          rcases List.mem_cons.mp hmem with h1 | h1
          · exact hc h1.symm
          · exact hna h1
        · rw [List.cons_append, hcs]

theorem splitOnce_of_not_mem (sep : Char) (cs : List Char) (h : sep ∉ cs) :
    splitOnce sep cs = none := by
  induction cs with
  | nil => rfl
  | cons c cs0 ih =>
    have hc : c ≠ sep := by
      intro hc
      exact h (by simp [hc])
    simp only [splitOnce, if_neg hc, ih (fun hm => h (by simp [hm]))]

theorem splitOnce_of_mem (sep : Char) (cs : List Char) (h : sep ∈ cs) :
    splitOnce sep cs =
      some (cs.takeWhile (fun c => c != sep), (cs.dropWhile (fun c => c != sep)).tail) := by
  induction cs with
  | nil => simp at h
  | cons c cs0 ih =>
    by_cases hc : c = sep
    · subst hc
      simp [splitOnce, List.takeWhile_cons, List.dropWhile_cons]
    · have hmem : sep ∈ cs0 := by
        rcases List.mem_cons.mp h with h1 | h1
        · exact absurd h1.symm hc
        · exact h1
      simp only [splitOnce, if_neg hc]
      rw [ih hmem]
      dsimp only
      have hbne : (c != sep) = true := by simp [hc]
      simp [List.takeWhile_cons, List.dropWhile_cons, hbne]

/-! ## Slicing and delegation lemmas -/

theorem splitAtByte_basic (cs : List Char) :
    splitAtByte 6 ('B' :: 'a' :: 's' :: 'i' :: 'c' :: ' ' :: cs) =
      some (['B', 'a', 's', 'i', 'c', ' '], cs) := by
  simp [splitAtByte, charUtf8Size]

theorem utf8EncodeList_basic :
    utf8EncodeList ['B', 'a', 's', 'i', 'c', ' '] = [66, 97, 115, 105, 99, 32] := by decide

theorem new_basic_append (r : String) :
    BasicAuth.new ("Basic " ++ r) =
      match decode_to_creds r with
      | .ok (some (u, p)) => .ok (some ⟨u, p⟩)
      | .ok none => .ok none
      | .panicked => .panicked := by
  obtain ⟨rl⟩ := r
  rcases rl with _ | ⟨c, rl0⟩
  · decide
  · unfold BasicAuth.new
    have hdata : ("Basic " ++ (⟨c :: rl0⟩ : String)).data =
        ['B', 'a', 's', 'i', 'c', ' '] ++ (c :: rl0) := rfl
    rw [hdata, utf8EncodeList_append, utf8EncodeList_basic]
    have hlen : 1 ≤ (utf8EncodeList (c :: rl0)).length := by
      have hne : utf8EncodeList (c :: rl0) ≠ [] := by
        show utf8EncodeChar c ++ utf8EncodeList rl0 ≠ []
        intro hnil
        rcases List.append_eq_nil.mp hnil with ⟨h1, -⟩
        exact absurd h1 (utf8EncodeChar_ne_nil c)
      rcases hx : utf8EncodeList (c :: rl0) with _ | ⟨y, ys⟩
      · exact absurd hx hne
      · simp
    rw [if_neg (by simp; omega)]
    rw [show (['B', 'a', 's', 'i', 'c', ' '] ++ (c :: rl0) : List Char) =
      'B' :: 'a' :: 's' :: 'i' :: 'c' :: ' ' :: (c :: rl0) from rfl]
    rw [splitAtByte_basic]
    dsimp only
    rw [utf8EncodeList_basic, if_neg (by simp)]
    cases hd : decode_to_creds (⟨c :: rl0⟩ : String) with
    | panicked => rfl
    | ok a =>
      cases a with
      | none => rfl
      | some up =>
        obtain ⟨u, p⟩ := up
        rfl

/-- Divergence behind C1 in general form: whenever the base64 payload
decodes to bytes that are not valid UTF-8, the `unwrap` in the source makes
`decode_to_creds` terminate abnormally instead of returning `None`. -/
theorem decode_to_creds_panicked_of_invalid_utf8 (s : String) (bs : List Nat)
    (h1 : b64decode s = some bs) (h2 : utf8DecodeString bs = none) :
    decode_to_creds s = .panicked := by
  unfold decode_to_creds
  rw [h1]
  dsimp only
  rw [h2]

/-! ## Claim theorems -/

/-- C1: the spec demands that a payload whose base64 decoding succeeds but
whose bytes are not valid UTF-8 yields the failure outcome (`None`, mapped
to `MalformedEncoding`) and never a panic.  The source instead calls
`String::from_utf8(cred_bytes).unwrap()` (lib.rs line 82): on the payload
`"gQ=="` — base64 of the single byte `0x81`, which is not valid UTF-8 —
`decode_to_creds` terminates abnormally. -/
theorem c1_invalid_utf8_panics :
    b64decode "gQ==" = some [129] ∧
    utf8DecodeString [129] = none ∧
    decode_to_creds "gQ==" = PanicOr.panicked := by
  refine ⟨by decide, by decide, by decide⟩

/-- C2 counterexample: the round-trip claim quantifies over all NUL-free
pairs, but for `username = ":"`, `password = ""` (both NUL-free) the
decoder splits at the first colon of `"::"` and returns `("", ":")`, not
`(":", "")`. -/
theorem c2_counterexample :
    (Char.ofNat 0 ∉ (":" : String).data ∧ Char.ofNat 0 ∉ ("" : String).data) ∧
    BasicAuth.new (encodeBasic ":" "") ≠ PanicOr.ok (some ⟨":", ""⟩) ∧
    BasicAuth.new (encodeBasic ":" "") = PanicOr.ok (some ⟨"", ":"⟩) := by
  refine ⟨by decide, by decide, by decide⟩

/-- C2 amended: for every pair `(username, password)` of UTF-8 text not
containing a NUL byte and whose username contains no colon,
`BasicAuth::new` applied to `"Basic " + base64(username + ":" + password)`
returns exactly that pair. -/
theorem c2_roundtrip (u p : String) (_hu0 : Char.ofNat 0 ∉ u.data)
    (_hp0 : Char.ofNat 0 ∉ p.data) (hu : ':' ∉ u.data) :
    BasicAuth.new (encodeBasic u p) = PanicOr.ok (some ⟨u, p⟩) := by
  unfold encodeBasic
  rw [new_basic_append]
  have hb64 : b64decode (b64encode (utf8EncodeList ((u ++ ":" ++ p).data))) =
      some (utf8EncodeList ((u ++ ":" ++ p).data)) :=
    b64decode_encode _ (utf8EncodeList_lt _)
  have hutf : utf8DecodeString (utf8EncodeList ((u ++ ":" ++ p).data)) =
      some ⟨(u ++ ":" ++ p).data⟩ := by
    unfold utf8DecodeString
    rw [utf8DecodeList_encodeList]
  have hdata : (u ++ ":" ++ p).data = u.data ++ ':' :: p.data := by
    show (u.data ++ [':']) ++ p.data = u.data ++ ':' :: p.data
    simp
  have hsplit : splitOnce ':' ((u ++ ":" ++ p).data) = some (u.data, p.data) := by
    rw [hdata]
    exact splitOnce_append ':' u.data p.data hu
  unfold decode_to_creds
  rw [hb64]
  dsimp only
  rw [hutf]
  dsimp only
  rw [hsplit]

/-- C2 witness: the amended round trip at a concrete pair. -/
theorem c2_roundtrip_witness :
    BasicAuth.new (encodeBasic "name" "pass:word") =
      PanicOr.ok (some ⟨"name", "pass:word"⟩) :=
  c2_roundtrip "name" "pass:word" (by decide) (by decide) (by decide)

/-- C3: when the decoded text contains a colon, the splitter returns the
text strictly before the first colon as username and everything after it
(further colons included) as password; in particular the payload for
`"name:pass:word"` decodes to `("name", "pass:word")`. -/
theorem c3_split_at_first_colon :
    (∀ cs : List Char, ':' ∈ cs →
      splitOnce ':' cs =
        some (cs.takeWhile (fun c => c != ':'), (cs.dropWhile (fun c => c != ':')).tail)) ∧
    decode_to_creds "bmFtZTpwYXNzOndvcmQ=" = PanicOr.ok (some ("name", "pass:word")) :=
  ⟨fun cs h => splitOnce_of_mem ':' cs h, by decide⟩

/-- C3 witness: the splitter at a concrete input containing two colons. -/
theorem c3_split_at_first_colon_witness :
    splitOnce ':' ['n', ':', 'p', ':', 'q'] = some (['n'], ['p', ':', 'q']) := by
  rw [c3_split_at_first_colon.1 ['n', ':', 'p', ':', 'q'] (by decide)]
  decide

/-- C4: the guard maps the count of `Authorization` header values as the
spec says: zero yields `Forward` (`NotAttempted`); one delegates to
`BasicAuth::new`, its `Some` yielding `Success` and its `None` yielding
`Failure BadRequest/Invalid` (`Rejected(MalformedEncoding)`); two or more
yield `Failure BadRequest/BadCount` (`Rejected(AmbiguousHeaderCount)`)
unconditionally. -/
theorem c4_header_count :
    from_request [] = PanicOr.ok Outcome.Forward ∧
    (∀ (k : String) (a : BasicAuth), BasicAuth.new k = PanicOr.ok (some a) →
      from_request [k] = PanicOr.ok (Outcome.Success a)) ∧
    (∀ k : String, BasicAuth.new k = PanicOr.ok none →
      from_request [k] = PanicOr.ok (Outcome.Failure (Status.BadRequest, BasicAuthError.Invalid))) ∧
    (∀ keys : List String, 2 ≤ keys.length →
      from_request keys =
        PanicOr.ok (Outcome.Failure (Status.BadRequest, BasicAuthError.BadCount))) := by
  refine ⟨rfl, ?_, ?_, ?_⟩
  · intro k a h
    unfold from_request
    dsimp only
    rw [h]
  · intro k h
    unfold from_request
    dsimp only
    rw [h]
  · intro keys h
    match keys with
    | [] => simp at h
    | [k] => simp at h
    | k1 :: k2 :: rest => rfl

/-- C4 witness: the three hypothesis-bearing cases at concrete inputs. -/
theorem c4_header_count_witness :
    from_request ["Basic Og=="] = PanicOr.ok (Outcome.Success ⟨"", ""⟩) ∧
    from_request ["x"] =
      PanicOr.ok (Outcome.Failure (Status.BadRequest, BasicAuthError.Invalid)) ∧
    from_request ["a", "b"] =
      PanicOr.ok (Outcome.Failure (Status.BadRequest, BasicAuthError.BadCount)) :=
  ⟨c4_header_count.2.1 "Basic Og==" ⟨"", ""⟩ (by decide),
   c4_header_count.2.2.1 "x" (by decide),
   c4_header_count.2.2.2 ["a", "b"] (by decide)⟩

/-- C5: the spec demands that every header value shorter than 7 characters
or not starting with the exact prefix `"Basic "` yields `MalformedEncoding`
(`None`).  The source's byte slice `&key[..6]` (lib.rs line 147) panics
when byte index 6 falls inside a multi-byte character: the value
`"Basicéx"` is 8 UTF-8 bytes long, does not start with `"Basic "`, yet
`BasicAuth::new` terminates abnormally instead of returning `None`. -/
theorem c5_boundary_panic :
    (utf8EncodeList ("Basicéx" : String).data).length = 8 ∧
    (utf8EncodeList ("Basicéx" : String).data).take 6 ≠ [66, 97, 115, 105, 99, 32] ∧
    BasicAuth.new "Basicéx" = PanicOr.panicked := by
  refine ⟨by decide, by decide, by decide⟩

/-- C6: a decoded text with no colon makes the splitter return `none` and
the whole decode fail with `None` (`MalformedEncoding`), never a credential
with an empty password; in particular the payload `"bm9jb2xvbg=="`
(base64 of `"nocolon"`) fails. -/
theorem c6_no_colon_fails :
    (∀ cs : List Char, ':' ∉ cs → splitOnce ':' cs = none) ∧
    (∀ (s : String) (bs : List Nat) (t : String), b64decode s = some bs →
      utf8DecodeString bs = some t → ':' ∉ t.data → decode_to_creds s = PanicOr.ok none) ∧
    decode_to_creds "bm9jb2xvbg==" = PanicOr.ok none := by
  refine ⟨splitOnce_of_not_mem ':', ?_, by decide⟩
  intro s bs t h1 h2 h3
  unfold decode_to_creds
  rw [h1]
  dsimp only
  rw [h2]
  dsimp only
  rw [splitOnce_of_not_mem ':' t.data h3]

/-- C6 witness: the no-colon cases at concrete inputs. -/
theorem c6_no_colon_fails_witness :
    splitOnce ':' ['n', 'o'] = none ∧ decode_to_creds "bm9jb2xvbg==" = PanicOr.ok none :=
  ⟨c6_no_colon_fails.1 ['n', 'o'] (by decide),
   c6_no_colon_fails.2.1 "bm9jb2xvbg==" [110, 111, 99, 111, 108, 111, 110] "nocolon"
     (by decide) (by decide) (by decide)⟩

/-- C7: after the 6-byte `"Basic "` prefix the remainder is handed to the
base64 decoder (first conjunct: the guard on a prefixed value behaves
exactly as `decode_to_creds` on the remainder), any base64 decode failure
yields `None` (`MalformedEncoding`), and the decoder is padding-tolerant
(`"Og"`, the unpadded form of `"Og=="`, still decodes). -/
theorem c7_base64_policy :
    (∀ r : String, BasicAuth.new ("Basic " ++ r) =
      match decode_to_creds r with
      | .ok (some (u, p)) => .ok (some ⟨u, p⟩)
      | .ok none => .ok none
      | .panicked => .panicked) ∧
    (∀ s : String, b64decode s = none → decode_to_creds s = PanicOr.ok none) ∧
    decode_to_creds "Og" = PanicOr.ok (some ("", "")) ∧
    b64decode "!" = none := by
  refine ⟨new_basic_append, ?_, by decide, by decide⟩
  intro s h
  unfold decode_to_creds
  rw [h]

/-- C7 witness: failure propagation at the concrete non-alphabet input
`"!"` and delegation at a concrete prefixed value. -/
theorem c7_base64_policy_witness :
    decode_to_creds "!" = PanicOr.ok none ∧
    BasicAuth.new ("Basic " ++ "Og==") =
      match decode_to_creds "Og==" with
      | .ok (some (u, p)) => .ok (some ⟨u, p⟩)
      | .ok none => .ok none
      | .panicked => .panicked :=
  ⟨c7_base64_policy.2.1 "!" (by decide), c7_base64_policy.1 "Og=="⟩

/-- C8: empty username and/or password are successful outcomes: the
prefixed payload `"Og=="` (base64 of `":"`) yields `("", "")` and
`"ZW1wdHlwYXNzOg=="` (base64 of `"emptypass:"`) yields
`("emptypass", "")`. -/
theorem c8_empty_sides_ok :
    decode_to_creds "Og==" = PanicOr.ok (some ("", "")) ∧
    BasicAuth.new "Basic Og==" = PanicOr.ok (some ⟨"", ""⟩) ∧
    decode_to_creds "ZW1wdHlwYXNzOg==" = PanicOr.ok (some ("emptypass", "")) ∧
    BasicAuth.new "Basic ZW1wdHlwYXNzOg==" = PanicOr.ok (some ⟨"emptypass", ""⟩) := by
  refine ⟨by decide, by decide, by decide, by decide⟩

/-- C9: the decoder, the splitter and the guard entry point are
deterministic pure mappings: equal inputs give equal outcomes (they are
total functions of their arguments alone in this embedding, mirroring the
absence of I/O and of ambient state in the source). -/
theorem c9_deterministic (s1 s2 : String) (keys1 keys2 : List String)
    (hs : s1 = s2) (hk : keys1 = keys2) :
    decode_to_creds s1 = decode_to_creds s2 ∧
    BasicAuth.new s1 = BasicAuth.new s2 ∧
    splitOnce ':' s1.data = splitOnce ':' s2.data ∧
    from_request keys1 = from_request keys2 := by
  subst hs
  subst hk
  exact ⟨rfl, rfl, rfl, rfl⟩

/-- C9 witness: determinism at concrete inputs. -/
theorem c9_deterministic_witness :
    decode_to_creds "Og==" = decode_to_creds "Og==" ∧
    BasicAuth.new "Og==" = BasicAuth.new "Og==" ∧
    splitOnce ':' ("Og==" : String).data = splitOnce ':' ("Og==" : String).data ∧
    from_request ["Og=="] = from_request ["Og=="] :=
  c9_deterministic "Og==" "Og==" ["Og=="] ["Og=="] rfl rfl

/-- C10: a successful `decode_to_creds` never loses or reorders payload
characters: the username contains no colon and
`username ++ ":" ++ password` is exactly the UTF-8 text decoded from the
base64 payload. -/
theorem c10_lossless_split (s u p : String)
    (h : decode_to_creds s = PanicOr.ok (some (u, p))) :
    ':' ∉ u.data ∧
    ∃ (bs : List Nat) (t : String), b64decode s = some bs ∧
      utf8DecodeString bs = some t ∧ u ++ ":" ++ p = t := by
  unfold decode_to_creds at h
  cases hb : b64decode s with
  | none =>
    rw [hb] at h
    simp at h
  | some bs =>
    rw [hb] at h
    dsimp only at h
    cases hu : utf8DecodeString bs with
    | none =>
      rw [hu] at h
      simp at h
    | some t =>
      rw [hu] at h
      dsimp only at h
      cases hsp : splitOnce ':' t.data with
      | none =>
        rw [hsp] at h
        simp at h
      | some q =>
        obtain ⟨a, b⟩ := q
        rw [hsp] at h
        dsimp only at h
        simp only [PanicOr.ok.injEq, Option.some.injEq, Prod.mk.injEq] at h
        obtain ⟨rfl, rfl⟩ := h
        obtain ⟨hna, hdata⟩ := splitOnce_eq_some ':' t.data a b hsp
        refine ⟨hna, bs, t, rfl, hu, ?_⟩
        obtain ⟨tl⟩ := t
        have htl : tl = a ++ ':' :: b := hdata
        subst htl
        show (⟨(a ++ [':']) ++ b⟩ : String) = ⟨a ++ ':' :: b⟩
        have : (a ++ [':']) ++ b = a ++ ':' :: b := by simp
        rw [this]

/-- C10 witness: the invariant at the concrete payload for
`"name:password"`. -/
theorem c10_lossless_split_witness :
    ':' ∉ ("name" : String).data ∧
    ∃ (bs : List Nat) (t : String), b64decode "bmFtZTpwYXNzd29yZA==" = some bs ∧
      utf8DecodeString bs = some t ∧ "name" ++ ":" ++ "password" = t :=
  c10_lossless_split "bmFtZTpwYXNzd29yZA==" "name" "password" (by decide)
